import Mathlib

/-!
Shallow embedding of the emerald-js value core: the arbitrary-precision
monetary type Wei (src Wei class over bignumber.js), the unit table, the
standalone format module's toHex, and the chain-detection outcome handling.
Numeric values of the underlying big-decimal library are modelled as
rationals extended with the library's special values (positive and negative
infinity and NaN), with the library's documented rounding semantics made
explicit.
-/

namespace EmeraldJS

/-- Rounding modes of bignumber.js used by this code base: ROUND_HALF_UP
rounds to the nearest integer with ties away from zero, ROUND_HALF_DOWN
rounds to the nearest integer with ties toward zero. -/
inductive RoundMode where
  | halfUp : RoundMode
  | halfDown : RoundMode
deriving DecidableEq

/-- Rounding of a rational to an integer following the bignumber.js mode
semantics. -/
def roundQ : RoundMode → ℚ → ℤ
  | RoundMode.halfUp, x => if 0 ≤ x then Int.floor (x + 1/2) else Int.ceil (x - 1/2)
  | RoundMode.halfDown, x => if 0 ≤ x then Int.ceil (x - 1/2) else Int.floor (x + 1/2)

/-- Truncation toward zero: the semantics of dividedToIntegerBy. -/
def truncQ (x : ℚ) : ℤ := if 0 ≤ x then Int.floor x else Int.ceil x

/-- Rounding to a fixed number of decimal places, as bignumber.js
decimalPlaces and the implicit DECIMAL_PLACES rounding of dividedBy do. -/
def roundDpQ (rm : RoundMode) (dp : ℕ) (x : ℚ) : ℚ :=
  ((roundQ rm (x * 10 ^ dp) : ℤ) : ℚ) / 10 ^ dp

/-- Value of a bignumber.js instance: a finite arbitrary-precision decimal
(modelled as a rational; the signed zero of the library is not
distinguished), positive or negative infinity, or NaN. -/
inductive BigNum where
  | num : ℚ → BigNum
  | posInf : BigNum
  | negInf : BigNum
  | nan : BigNum
deriving DecidableEq

open BigNum

/-- multipliedBy: exact on finite values; NaN propagates; infinities follow
the sign rules, with infinity times zero giving NaN. -/
def bnMul : BigNum → BigNum → BigNum
  | nan, _ => nan
  | _, nan => nan
  | num p, num q => num (p * q)
  | num p, posInf => if 0 < p then posInf else if p < 0 then negInf else nan
  | num p, negInf => if 0 < p then negInf else if p < 0 then posInf else nan
  | posInf, num q => if 0 < q then posInf else if q < 0 then negInf else nan
  | negInf, num q => if 0 < q then negInf else if q < 0 then posInf else nan
  | posInf, posInf => posInf
  | posInf, negInf => negInf
  | negInf, posInf => negInf
  | negInf, negInf => posInf

/-- plus: exact on finite values; opposite infinities give NaN. -/
def bnAdd : BigNum → BigNum → BigNum
  | nan, _ => nan
  | _, nan => nan
  | num p, num q => num (p + q)
  | num _, posInf => posInf
  | num _, negInf => negInf
  | posInf, num _ => posInf
  | negInf, num _ => negInf
  | posInf, posInf => posInf
  | negInf, negInf => negInf
  | posInf, negInf => nan
  | negInf, posInf => nan

/-- negated, used to express minus. -/
def bnNeg : BigNum → BigNum
  | num q => num (-q)
  | posInf => negInf
  | negInf => posInf
  | nan => nan

/-- minus. -/
def bnSub (a b : BigNum) : BigNum := bnAdd a (bnNeg b)

/-- dividedToIntegerBy: the integer part of the quotient (truncation toward
zero); a zero divisor yields a signed infinity, or NaN for a zero
dividend, exactly as bignumber.js division does. -/
def bnDivToInt : BigNum → BigNum → BigNum
  | nan, _ => nan
  | _, nan => nan
  | num p, num q =>
      if q = 0 then (if 0 < p then posInf else if p < 0 then negInf else nan)
      else num ((truncQ (p / q) : ℤ) : ℚ)
  | num _, posInf => num 0
  | num _, negInf => num 0
  | posInf, num q => if q < 0 then negInf else posInf
  | negInf, num q => if q < 0 then posInf else negInf
  | posInf, _ => nan
  | negInf, _ => nan

/-- dividedBy: the quotient rounded to DECIMAL_PLACES = 20 decimal places
with the default ROUNDING_MODE ROUND_HALF_UP (the source configures only
EXPONENTIAL_AT, leaving both defaults in force); special values as in
division. -/
def bnDiv : BigNum → BigNum → BigNum
  | nan, _ => nan
  | _, nan => nan
  | num p, num q =>
      if q = 0 then (if 0 < p then posInf else if p < 0 then negInf else nan)
      else num (roundDpQ RoundMode.halfUp 20 (p / q))
  | num _, posInf => num 0
  | num _, negInf => num 0
  | posInf, num q => if q < 0 then negInf else posInf
  | negInf, num q => if q < 0 then posInf else negInf
  | posInf, _ => nan
  | negInf, _ => nan

/-- integerValue with ROUND_HALF_DOWN, also decimalPlaces(0, ROUND_HALF_DOWN):
special values pass through unchanged. -/
def bnRoundInt : BigNum → BigNum
  | num q => num ((roundQ RoundMode.halfDown q : ℤ) : ℚ)
  | b => b

/-- isEqualTo: NaN is equal to nothing, not even itself. -/
def bnEq : BigNum → BigNum → Bool
  | num p, num q => decide (p = q)
  | posInf, posInf => true
  | negInf, negInf => true
  | _, _ => false

/-- isGreaterThanOrEqualTo: false whenever NaN is involved. -/
def bnGTE : BigNum → BigNum → Bool
  | nan, _ => false
  | _, nan => false
  | num p, num q => decide (q ≤ p)
  | posInf, _ => true
  | _, posInf => false
  | _, negInf => true
  | negInf, _ => false

/-- isZero. -/
def bnIsZero : BigNum → Bool
  | num q => decide (q = 0)
  | _ => false

/-- isNegative on the underlying value (sign inspection). -/
def bnIsNeg : BigNum → Bool
  | num q => decide (q < 0)
  | negInf => true
  | _ => false

/-- abs. -/
def bnAbs : BigNum → BigNum
  | num q => num |q|
  | nan => nan
  | _ => posInf

/-- Digit characters of a natural number in the given base, most significant
first, driven by an explicit fuel argument; Nat.digitChar yields the
lowercase digits 0 to 9 and a to f, exactly the alphabet bignumber.js uses
for base-16 strings. -/
def natToDigitsAux (b : ℕ) : ℕ → ℕ → List Char → List Char
  | 0, _, acc => acc
  | fuel + 1, n, acc =>
      if n < b then Nat.digitChar n :: acc
      else natToDigitsAux b fuel (n / b) (Nat.digitChar (n % b) :: acc)

/-- Lowercase base-16 digit list of a natural number. -/
def natHexChars (n : ℕ) : List Char := natToDigitsAux 16 (n + 1) n []

/-- Lowercase base-16 string of a natural number. -/
def natToHex (n : ℕ) : String := String.mk (natHexChars n)

/-- Base-10 digit list of a natural number. -/
def natDecChars (n : ℕ) : List Char := natToDigitsAux 10 (n + 1) n []

/-- bignumber.js toString(16). Wei magnitudes are always integral, so the
finite case is modelled on the integer part: the sign followed by the
lowercase hex digits of the absolute value. The special values print as the
library prints them. -/
def bnToString16 : BigNum → String
  | num q => (if q < 0 then "-" else "") ++ natToHex q.num.natAbs
  | posInf => "Infinity"
  | negInf => "-Infinity"
  | nan => "NaN"

/-- Denomination: a named power-of-ten multiple of Wei. The weis field is an
always-finite BigNumber in the source, modelled as a rational. -/
structure Unit where
  name : String
  weis : ℚ
deriving DecidableEq

/-- Units.ETHER. -/
def Units.ETHER : Unit := { name := "Ether", weis := 10 ^ 18 }

/-- Units.MILLI. -/
def Units.MILLI : Unit := { name := "Milliether", weis := 10 ^ 15 }

/-- Units.MICRO. -/
def Units.MICRO : Unit := { name := "Microether", weis := 10 ^ 12 }

/-- Units.GWEI. -/
def Units.GWEI : Unit := { name := "Gwei", weis := 10 ^ 9 }

/-- Units.MWEI. -/
def Units.MWEI : Unit := { name := "Mwei", weis := 10 ^ 6 }

/-- Units.KWEI. -/
def Units.KWEI : Unit := { name := "Kwei", weis := 10 ^ 3 }

/-- Units.WEI, the atomic unit. -/
def Units.WEI : Unit := { name := "Wei", weis := 10 ^ 0 }

/-- The fixed candidate list, largest unit first. -/
def ALL_UNITS : List Unit :=
  [Units.ETHER, Units.MILLI, Units.MICRO, Units.GWEI, Units.MWEI, Units.KWEI, Units.WEI]

/-- Immutable Wei value. -/
structure Wei where
  value : BigNum
deriving DecidableEq

/-- Wei constructor. convert.toBigNumber, which normalizes number, string and
BigNumber inputs to a BigNumber, is modelled by taking the already-converted
BigNum as the argument. A unit other than Units.WEI scales by the unit's weis
and applies decimalPlaces(0, ROUND_HALF_DOWN); integerValue with
ROUND_HALF_DOWN is then applied unconditionally. -/
def mkWei (val : BigNum) (unit : Unit) : Wei :=
  let value := val
  let value := if unit ≠ Units.WEI then bnRoundInt (bnMul value (num unit.weis)) else value
  ⟨bnRoundInt value⟩

/-- mul: multiply by a scalar and rebuild through the constructor. -/
def Wei.mul (w : Wei) (another : BigNum) : Wei := mkWei (bnMul w.value another) Units.WEI

/-- divide: dividedToIntegerBy a scalar and rebuild through the
constructor. -/
def Wei.divide (w : Wei) (another : BigNum) : Wei := mkWei (bnDivToInt w.value another) Units.WEI

/-- plus. -/
def Wei.plus (a another : Wei) : Wei := mkWei (bnAdd a.value another.value) Units.WEI

/-- sub. -/
def Wei.sub (a another : Wei) : Wei := mkWei (bnSub a.value another.value) Units.WEI

/-- minus, an alias of sub. -/
def Wei.minus (a another : Wei) : Wei := Wei.sub a another

/-- equals. -/
def Wei.equals (a another : Wei) : Bool := bnEq a.value another.value

/-- isZero. -/
def Wei.isZero (w : Wei) : Bool := bnIsZero w.value

/-- isNegative: strictly negative, zero excluded. -/
def Wei.isNegative (w : Wei) : Bool := bnIsNeg w.value && !(Wei.isZero w)

/-- getUnit: a zero value yields Units.ETHER; otherwise the first accepted
unit whose weis divided by 10 to the digits is at most the value, with
Units.WEI as the fallback. -/
def Wei.getUnit (w : Wei) (digits : ℕ) (accepted : List Unit) : Unit :=
  if bnEq w.value (num 0) then Units.ETHER
  else
    let del : ℚ := 10 ^ digits
    match accepted.find? (fun u => bnGTE w.value (bnDiv (num u.weis) (num del))) with
    | some u => u
    | none => Units.WEI

/-- toUnit: the identity on the stored value for the atomic unit, dividedBy
the unit's weis otherwise. -/
def Wei.toUnit (w : Wei) (unit : Unit) : BigNum :=
  if unit = Units.WEI then w.value else bnDiv w.value (num unit.weis)

/-- toHex: optional minus sign, then the 0x prefix, then the base-16 digits
of the absolute value. -/
def Wei.toHex (w : Wei) : String :=
  (if Wei.isNegative w then "-" else "") ++ "0x" ++ bnToString16 (bnAbs w.value)

/-- Exactly d decimal digit characters of n, most significant first and left
padded with zeros: the fractional block of a toFixed rendering. -/
def fracDigits : ℕ → ℕ → List Char
  | _, 0 => []
  | n, d + 1 => fracDigits (n / 10) d ++ [Nat.digitChar (n % 10)]

/-- bignumber.js toFixed(d, ROUND_HALF_UP) on a finite value: scale by 10 to
the d, round half away from zero, then print the sign, the integer part and,
for positive d, a point followed by exactly d fractional digits. The signed
zero the library can print is not modelled. -/
def toFixedChars (x : ℚ) (d : ℕ) : List Char :=
  let m : ℤ := roundQ RoundMode.halfUp (x * 10 ^ d)
  let sgn : List Char := if m < 0 then ['-'] else []
  if d = 0 then sgn ++ natDecChars m.natAbs
  else sgn ++ natDecChars (m.natAbs / 10 ^ d) ++ '.' :: fracDigits (m.natAbs % 10 ^ d) d

/-- toFixed on a general value: special values print as the library prints
them. -/
def bnToFixedChars : BigNum → ℕ → List Char
  | num q, d => toFixedChars q d
  | posInf, _ => "Infinity".toList
  | negInf, _ => "-Infinity".toList
  | nan, _ => "NaN".toList

/-- Index of the decimal point, -1 when absent, as JavaScript indexOf
reports it. -/
def pointIdx (cs : List Char) : ℤ :=
  match cs.findIdx? (fun c => c == '.') with
  | some i => (i : ℤ)
  | none => -1

/-- Final index of the trailing-zero trimming loop of toString: starting
from i, keep decrementing while the character before the index is a zero
digit and the index stays strictly right of the decimal point. -/
def trimIndex (cs : List Char) (point : ℕ) : ℕ → ℕ
  | 0 => 0
  | i + 1 => if i + 1 > point ∧ cs.getD i ' ' = '0' then trimIndex cs point i else i + 1

/-- toString as a character list: convert to the requested unit, render with
toFixed(decimals, ROUND_HALF_UP), then, unless fixed is set and provided a
decimal point is present past index zero, trim trailing zeros down to the
point and drop a dangling point; optionally append the unit name. -/
def Wei.toStringChars (w : Wei) (unit : Unit) (decimals : ℕ) (showUnit : Bool) (fixed : Bool) :
    List Char :=
  let bn := Wei.toUnit w unit
  let num0 := bnToFixedChars bn decimals
  let point := pointIdx num0
  let num1 :=
    if ¬ fixed ∧ point > 0 then
      let i := trimIndex num0 point.toNat num0.length
      if i < num0.length then
        let t := num0.take i
        if t.getLast? = some '.' then t.dropLast else t
      else num0
    else num0
  if showUnit then num1 ++ ' ' :: unit.name.toList else num1

/-- toString. -/
def Wei.toString (w : Wei) (unit : Unit) (decimals : ℕ) (showUnit : Bool) (fixed : Bool) :
    String :=
  String.mk (Wei.toStringChars w unit decimals showUnit fixed)

/-- toHex of the standalone format module: the 0x prefix concatenated with
the bignumber base-16 rendering, which itself carries the sign. -/
def formatToHex (val : BigNum) : String := "0x" ++ bnToString16 val

/-- Predicate for the integrality invariant: a finite magnitude has
denominator one; the special values carry no fractional part. -/
def bnIntegral : BigNum → Bool
  | num q => decide (q.den = 1)
  | _ => true

/-- Alphabet of lowercase base-16 digits. -/
def hexAlphabet : List Char := "0123456789abcdef".toList

/-- Alphabet of base-10 digits. -/
def decAlphabet : List Char := "0123456789".toList

/-- Number of characters strictly after the decimal point of a rendered
number (the whole string length when no point is present). -/
def fractionalDigitCount (s : String) : ℕ :=
  ((s.toList.reverse).takeWhile (fun c => c != '.')).length

/-- Entry of the static chain registry. -/
structure ChainRecord where
  referenceBlockHash : String
  chainName : String
  chainId : ℕ
deriving DecidableEq

/-- Classification returned by the detector. -/
structure ChainResult where
  chain : String
  chainId : ℕ
deriving DecidableEq

/-- Modelled from the spec: lowercase normalization used for the
case-insensitive hash comparison of the detector, applied character by
character. -/
def normalizeHash (s : String) : String := String.mk (s.data.map Char.toLower)

/-- Modelled from the spec: nodeChecker.js is not among the provided sources
(only its test is), so the classification step applied to the transport
outcome follows spec section 4.4. On a successful response the returned hash
is compared case-insensitively against the static registry; a match yields
that record's name and id, no match yields the unknown classification with
chain id zero, and a transport failure propagates unchanged. -/
def checkResponse {ε : Type} (registry : List ChainRecord) (resp : Except ε String) :
    Except ε ChainResult :=
  match resp with
  | Except.error e => Except.error e
  | Except.ok h =>
      match registry.find? (fun r => normalizeHash r.referenceBlockHash == normalizeHash h) with
      | some r => Except.ok ⟨r.chainName, r.chainId⟩
      | none => Except.ok ⟨"unknown", 0⟩

/-! Theorems. -/

/-- Rounding an integer in any mode changes nothing. -/
theorem roundQ_intCast (rm : RoundMode) (n : ℤ) : roundQ rm ((n : ℚ)) = n := by
  have hf : (⌊((n : ℚ) + 1/2)⌋ : ℤ) = n := by
    rw [show ((n : ℚ) + 1/2) = 1/2 + (n : ℚ) by ring, Int.floor_add_int]
    norm_num
  have hc : (⌈((n : ℚ) - 1/2)⌉ : ℤ) = n := by
    rw [show ((n : ℚ) - 1/2) = -(1/2) + (n : ℚ) by ring, Int.ceil_add_int]
    norm_num
  cases rm <;> simp only [roundQ] <;> split <;> first | exact hf | exact hc

/-- Truncation of an integer changes nothing. -/
theorem truncQ_intCast (n : ℤ) : truncQ ((n : ℚ)) = n := by
  unfold truncQ
  split
  · exact Int.floor_intCast n
  · exact Int.ceil_intCast n

/-- Truncation toward zero never grows the absolute value. -/
theorem abs_truncQ_le (x : ℚ) : |((truncQ x : ℤ) : ℚ)| ≤ |x| := by
  unfold truncQ
  by_cases h : 0 ≤ x
  · have h0 : (0 : ℚ) ≤ ((⌊x⌋ : ℤ) : ℚ) := by exact_mod_cast Int.floor_nonneg.mpr h
    rw [if_pos h, abs_of_nonneg h, abs_of_nonneg h0]
    exact Int.floor_le x
  · have h1 : x < 0 := not_le.mp h
    have h2 : ((⌈x⌉ : ℤ) : ℚ) ≤ 0 := by exact_mod_cast Int.ceil_le.mpr (by exact_mod_cast h1.le)
    rw [if_neg h, abs_of_nonpos h1.le, abs_of_nonpos h2]
    exact neg_le_neg (Int.le_ceil x)

/-- Truncation toward zero lands within distance one of the input. -/
theorem abs_sub_truncQ_lt_one (x : ℚ) : |x - ((truncQ x : ℤ) : ℚ)| < 1 := by
  unfold truncQ
  by_cases h : 0 ≤ x
  · rw [if_pos h, abs_of_nonneg (by linarith [Int.floor_le x])]
    linarith [Int.lt_floor_add_one x]
  · rw [if_neg h, abs_of_nonpos (by linarith [Int.le_ceil x])]
    linarith [Int.ceil_lt_add_one x]

/-- ROUND_HALF_DOWN lands within half of the input: it rounds to a nearest
integer. -/
theorem roundQ_halfDown_nearest (x : ℚ) :
    |x - ((roundQ RoundMode.halfDown x : ℤ) : ℚ)| ≤ 1/2 := by
  simp only [roundQ]
  by_cases h : 0 ≤ x
  · rw [if_pos h, abs_le]
    constructor <;> [linarith [Int.ceil_lt_add_one (x - 1/2)]; linarith [Int.le_ceil (x - 1/2)]]
  · rw [if_neg h, abs_le]
    constructor <;>
      [linarith [Int.floor_le (x + 1/2)]; linarith [Int.lt_floor_add_one (x + 1/2)]]

/-- ROUND_HALF_DOWN resolves an exact tie toward zero: on a tie the result
is strictly smaller in absolute value. -/
theorem roundQ_halfDown_tie (x : ℚ)
    (h : |x - ((roundQ RoundMode.halfDown x : ℤ) : ℚ)| = 1/2) :
    |((roundQ RoundMode.halfDown x : ℤ) : ℚ)| < |x| := by
  by_cases hx : 0 ≤ x
  · simp only [roundQ, if_pos hx] at h ⊢
    have h1 : x - 1/2 ≤ ((⌈x - 1/2⌉ : ℤ) : ℚ) := Int.le_ceil _
    have h2 : ((⌈x - 1/2⌉ : ℤ) : ℚ) < x + 1/2 := by linarith [Int.ceil_lt_add_one (x - 1/2)]
    rcases (abs_eq (by norm_num : (0:ℚ) ≤ 1/2)).mp h with h3 | h3
    · have hm : (-1 : ℤ) < ⌈x - 1/2⌉ := by
        have : (-1 : ℚ) < ((⌈x - 1/2⌉ : ℤ) : ℚ) := by linarith
        exact_mod_cast this
      have hr0 : (0 : ℚ) ≤ ((⌈x - 1/2⌉ : ℤ) : ℚ) := by exact_mod_cast (by omega : 0 ≤ ⌈x - 1/2⌉)
      rw [abs_of_nonneg hr0, abs_of_nonneg hx]
      linarith
    · exfalso
      linarith
  · have hx1 : x < 0 := not_le.mp hx
    simp only [roundQ, if_neg hx] at h ⊢
    have h1 : ((⌊x + 1/2⌋ : ℤ) : ℚ) ≤ x + 1/2 := Int.floor_le _
    have h2 : x - 1/2 < ((⌊x + 1/2⌋ : ℤ) : ℚ) := by linarith [Int.lt_floor_add_one (x + 1/2)]
    rcases (abs_eq (by norm_num : (0:ℚ) ≤ 1/2)).mp h with h3 | h3
    · exfalso
      linarith
    · have hm : ⌊x + 1/2⌋ < 1 := by
        have : ((⌊x + 1/2⌋ : ℤ) : ℚ) < 1 := by linarith
        exact_mod_cast this
      have hr0 : ((⌊x + 1/2⌋ : ℤ) : ℚ) ≤ 0 := by exact_mod_cast (by omega : ⌊x + 1/2⌋ ≤ 0)
      rw [abs_of_nonpos hr0, abs_of_nonpos hx1.le]
      linarith

/-- Constructing with the atomic unit skips scaling and only applies the
final integerValue rounding. -/
theorem mkWei_atomic (v : BigNum) : mkWei v Units.WEI = ⟨bnRoundInt v⟩ := by
  simp [mkWei]

/-- Constructing with a non-atomic unit multiplies by the unit's weis and
rounds with ROUND_HALF_DOWN; the second integerValue pass is the identity on
the already-integral result. -/
theorem mkWei_scaled (q : ℚ) (u : Unit) (hu : u ≠ Units.WEI) :
    (mkWei (num q) u).value = num ((roundQ RoundMode.halfDown (q * u.weis) : ℤ) : ℚ) := by
  simp only [mkWei]
  rw [if_pos hu]
  simp [bnMul, bnRoundInt, roundQ_intCast]

/-- C1 (amended): construction from a finite input with a non-atomic unit
multiplies by the unit's atomic multiple and rounds to a nearest integer,
with an exact tie resolved toward zero (ROUND_HALF_DOWN of bignumber.js), so
both 0.5 and -0.5 atomic-unit-equivalents yield magnitude 0. -/
theorem wei_construct_rounds_half_toward_zero (q : ℚ) (u : Unit) (hu : u ≠ Units.WEI) :
    (mkWei (num q) u).value = num ((roundQ RoundMode.halfDown (q * u.weis) : ℤ) : ℚ) ∧
    |q * u.weis - ((roundQ RoundMode.halfDown (q * u.weis) : ℤ) : ℚ)| ≤ 1/2 ∧
    (|q * u.weis - ((roundQ RoundMode.halfDown (q * u.weis) : ℤ) : ℚ)| = 1/2 →
      |((roundQ RoundMode.halfDown (q * u.weis) : ℤ) : ℚ)| < |q * u.weis|) :=
  ⟨mkWei_scaled q u hu, roundQ_halfDown_nearest _, roundQ_halfDown_tie _⟩

/-- Witness for C1 at the concrete input 3/2000 Kwei, which scales to 1.5
atomic units and rounds to 1. -/
theorem wei_construct_rounds_half_toward_zero_witness :
    (mkWei (num ((3:ℚ)/2000)) Units.KWEI).value =
      num ((roundQ RoundMode.halfDown ((3:ℚ)/2000 * Units.KWEI.weis) : ℤ) : ℚ) :=
  (wei_construct_rounds_half_toward_zero ((3:ℚ)/2000) Units.KWEI (by decide)).1

/-- Counterexample for C1 as stated: an input worth -0.5 atomic units
constructs magnitude 0, not the claimed -1 (ties go toward zero, not toward
the more negative value). -/
theorem wei_construct_neg_half_counterexample :
    (mkWei (num (-(1:ℚ)/2000)) Units.KWEI).value = num 0 ∧
    (mkWei (num (-(1:ℚ)/2000)) Units.KWEI).value ≠ num (-1 : ℚ) := by
  have h := mkWei_scaled (-(1:ℚ)/2000) Units.KWEI (by decide)
  have harg : (-(1:ℚ)/2000) * Units.KWEI.weis = -(1:ℚ)/2 := by norm_num [Units.KWEI]
  rw [harg] at h
  have hr : roundQ RoundMode.halfDown (-(1:ℚ)/2) = 0 := by
    simp only [roundQ]
    rw [if_neg (by norm_num)]
    norm_num
  rw [hr] at h
  rw [Int.cast_zero] at h
  refine ⟨h, ?_⟩
  rw [h]
  intro hc
  rw [num.injEq] at hc
  norm_num at hc

/-- Results of bnRoundInt always satisfy the integrality predicate. -/
theorem bnRoundInt_integral (b : BigNum) : bnIntegral (bnRoundInt b) = true := by
  cases b <;> simp [bnRoundInt, bnIntegral, Rat.den_intCast]

/-- Every constructor result has an integral magnitude. -/
theorem mkWei_integral (v : BigNum) (u : Unit) : bnIntegral (mkWei v u).value = true := by
  simp only [mkWei]
  exact bnRoundInt_integral _

/-- C9: construction from any value with any unit, and every arithmetic
operation, yields a stored magnitude with no fractional part, because every
result is routed back through the constructor's integer rounding. -/
theorem wei_magnitude_integral :
    (∀ (v : BigNum) (u : Unit), bnIntegral (mkWei v u).value = true) ∧
    (∀ (w : Wei) (s : BigNum), bnIntegral (Wei.mul w s).value = true) ∧
    (∀ (w : Wei) (s : BigNum), bnIntegral (Wei.divide w s).value = true) ∧
    (∀ (a b : Wei), bnIntegral (Wei.plus a b).value = true) ∧
    (∀ (a b : Wei), bnIntegral (Wei.sub a b).value = true) ∧
    (∀ (a b : Wei), bnIntegral (Wei.minus a b).value = true) := by
  refine ⟨mkWei_integral, ?_, ?_, ?_, ?_, ?_⟩ <;> intro a b <;>
    simp only [Wei.mul, Wei.divide, Wei.plus, Wei.sub, Wei.minus] <;> exact mkWei_integral _ _

/-- C2 (amended): divide with a nonzero scalar truncates the quotient toward
zero (never past the input and within distance one) and produces a Wei; a
zero divisor does not fail but produces a Wei whose magnitude is a signed
infinity, or NaN for a zero dividend. -/
theorem wei_divide_spec (z : ℤ) (b : ℚ) :
    (b ≠ 0 →
      (Wei.divide ⟨num (z:ℚ)⟩ (num b)).value = num ((truncQ ((z:ℚ) / b) : ℤ) : ℚ) ∧
      |(z:ℚ) / b - ((truncQ ((z:ℚ) / b) : ℤ) : ℚ)| < 1 ∧
      |((truncQ ((z:ℚ) / b) : ℤ) : ℚ)| ≤ |(z:ℚ) / b|) ∧
    (Wei.divide ⟨num (z:ℚ)⟩ (num 0)).value =
      (if 0 < z then posInf else if z < 0 then negInf else nan) := by
  constructor
  · intro hb
    refine ⟨?_, abs_sub_truncQ_lt_one _, abs_truncQ_le _⟩
    simp only [Wei.divide, bnDivToInt, mkWei_atomic]
    rw [if_neg hb]
    simp [bnRoundInt, roundQ_intCast]
  · have hdiv : bnDivToInt (num (z:ℚ)) (num 0) =
        (if 0 < (z:ℚ) then posInf else if (z:ℚ) < 0 then negInf else nan) := by
      simp [bnDivToInt]
    simp only [Wei.divide, hdiv, mkWei_atomic]
    rcases lt_trichotomy 0 z with h | h | h
    · rw [if_pos (by exact_mod_cast h : (0:ℚ) < (z:ℚ)), if_pos h]
      rfl
    · rw [if_neg (by exact_mod_cast (by omega : ¬ (0:ℤ) < z) : ¬ (0:ℚ) < (z:ℚ)),
        if_neg (by exact_mod_cast (by omega : ¬ z < 0) : ¬ (z:ℚ) < 0),
        if_neg (by omega : ¬ 0 < z), if_neg (by omega : ¬ z < 0)]
      rfl
    · rw [if_neg (by exact_mod_cast (by omega : ¬ 0 < z) : ¬ (0:ℚ) < (z:ℚ)),
        if_pos (by exact_mod_cast h : (z:ℚ) < 0), if_neg (by omega : ¬ 0 < z),
        if_pos h]
      rfl

/-- Witness for C2 at dividend 7 and divisor 2: the quotient 3.5 truncates
to 3. -/
theorem wei_divide_spec_witness :
    (2:ℚ) ≠ 0 ∧ (Wei.divide ⟨num ((7:ℤ):ℚ)⟩ (num 2)).value = num (3 : ℚ) := by
  refine ⟨by norm_num, ?_⟩
  have h := ((wei_divide_spec 7 2).1 (by norm_num)).1
  have ht : (truncQ (((7:ℤ):ℚ) / 2) : ℤ) = 3 := by
    unfold truncQ
    rw [if_pos (by norm_num)]
    push_cast
    norm_num
  rw [ht] at h
  have h3 : ((3:ℤ) : ℚ) = (3:ℚ) := by norm_num
  rw [h3] at h
  exact h

/-- Counterexample for C2 as stated: a zero divisor does not signal an
error; divide returns an ordinary Wei whose magnitude is infinite (or NaN
for dividend zero). -/
theorem wei_divide_by_zero_returns_wei_value :
    Wei.divide ⟨num (5:ℚ)⟩ (num 0) = ⟨posInf⟩ ∧
    Wei.divide ⟨num (-5:ℚ)⟩ (num 0) = ⟨negInf⟩ ∧
    Wei.divide ⟨num (0:ℚ)⟩ (num 0) = ⟨nan⟩ := by
  refine ⟨?_, ?_, ?_⟩ <;> decide

/-- C8 (amended): for finite integral magnitudes, adding and then
subtracting the same value is the exact identity. -/
theorem wei_plus_minus_roundtrip (a b : ℤ) :
    Wei.equals (Wei.minus (Wei.plus ⟨num (a:ℚ)⟩ ⟨num (b:ℚ)⟩) ⟨num (b:ℚ)⟩) ⟨num (a:ℚ)⟩ = true := by
  have h1 : (a:ℚ) + (b:ℚ) = ((a + b : ℤ) : ℚ) := by push_cast; ring
  have h2 : ((a + b : ℤ) : ℚ) + -(b:ℚ) = ((a : ℤ) : ℚ) := by push_cast; ring
  have hp : Wei.plus ⟨num (a:ℚ)⟩ ⟨num (b:ℚ)⟩ = ⟨num ((a + b : ℤ) : ℚ)⟩ := by
    simp only [Wei.plus, bnAdd, mkWei_atomic, bnRoundInt]
    rw [h1, roundQ_intCast]
  have hm : Wei.minus ⟨num ((a + b : ℤ) : ℚ)⟩ ⟨num (b:ℚ)⟩ = ⟨num ((a : ℤ) : ℚ)⟩ := by
    simp only [Wei.minus, Wei.sub, bnSub, bnNeg, bnAdd, mkWei_atomic, bnRoundInt]
    rw [h2, roundQ_intCast]
  rw [hp, hm]
  simp [Wei.equals, bnEq]

/-- Counterexample for C8 as stated over all Wei values: with the
infinite-magnitude Wei produced by dividing by zero, plus then minus gives
NaN, which equals nothing. -/
theorem wei_plus_minus_infinite_counterexample :
    Wei.equals
      (Wei.minus
        (Wei.plus (mkWei (num 1) Units.WEI) (Wei.divide (mkWei (num 1) Units.WEI) (num 0)))
        (Wei.divide (mkWei (num 1) Units.WEI) (num 0)))
      (mkWei (num 1) Units.WEI) = false := by
  have h1 : mkWei (num (1:ℚ)) Units.WEI = ⟨num (1:ℚ)⟩ := by
    rw [mkWei_atomic]
    simp only [bnRoundInt]
    rw [show (1:ℚ) = ((1:ℤ):ℚ) by norm_num, roundQ_intCast]
  have hdiv : Wei.divide ⟨num (1:ℚ)⟩ (num (0:ℚ)) = ⟨posInf⟩ := by
    norm_num [Wei.divide, bnDivToInt, mkWei_atomic, bnRoundInt]
  rw [h1, hdiv]
  have hplus : Wei.plus ⟨num (1:ℚ)⟩ ⟨posInf⟩ = ⟨posInf⟩ := by
    simp [Wei.plus, bnAdd, mkWei_atomic, bnRoundInt]
  rw [hplus]
  have hminus : Wei.minus (⟨posInf⟩ : Wei) ⟨posInf⟩ = ⟨nan⟩ := by
    simp [Wei.minus, Wei.sub, bnSub, bnNeg, bnAdd, mkWei_atomic, bnRoundInt]
  rw [hminus]
  simp [Wei.equals, bnEq]

/-- Rounding to 20 decimal places is the identity on values that are exact
in 20 decimal places. -/
theorem roundDpQ_exact (x : ℚ) (m : ℤ) (h : x * 10 ^ 20 = (m : ℚ)) :
    roundDpQ RoundMode.halfUp 20 x = x := by
  unfold roundDpQ
  rw [h, roundQ_intCast, ← h, mul_div_cancel_right₀]
  exact pow_ne_zero _ (by norm_num)

/-- dividedBy of an integer by a power of ten up to 20 is exact: the 20
decimal places of the implicit rounding suffice. -/
theorem bnDiv_intCast_pow (z : ℤ) (k : ℕ) (hk : k ≤ 20) :
    bnDiv (num (z:ℚ)) (num ((10:ℚ) ^ k)) = num ((z:ℚ) / 10 ^ k) := by
  have hk0 : ((10:ℚ) ^ k) ≠ 0 := pow_ne_zero _ (by norm_num)
  simp only [bnDiv]
  rw [if_neg hk0]
  congr 1
  apply roundDpQ_exact _ (z * 10 ^ (20 - k))
  push_cast
  have hsplit : (10:ℚ) ^ 20 = 10 ^ k * 10 ^ (20 - k) := by
    rw [← pow_add]
    congr 1
    omega
  have h2 : (z:ℚ) / 10 ^ k * 10 ^ 20 = (z:ℚ) * 10 ^ (20 - k) * (10 ^ k / 10 ^ k) := by
    rw [hsplit]
    ring
  rw [h2, div_self hk0, mul_one]

/-- dividedBy of one power of ten by another stays exact while the exponent
gap is within the 20 decimal places. -/
theorem bnDiv_pow_pow (k d : ℕ) (hkd : d ≤ k + 20) :
    bnDiv (num ((10:ℚ) ^ k)) (num ((10:ℚ) ^ d)) = num ((10:ℚ) ^ k / 10 ^ d) := by
  have hd0 : ((10:ℚ) ^ d) ≠ 0 := pow_ne_zero _ (by norm_num)
  simp only [bnDiv]
  rw [if_neg hd0]
  congr 1
  apply roundDpQ_exact _ ((10 : ℤ) ^ (k + 20 - d))
  push_cast
  have hsplit : (10:ℚ) ^ (k + 20) = 10 ^ d * 10 ^ (k + 20 - d) := by
    rw [← pow_add]
    congr 1
    omega
  have h2 : (10:ℚ) ^ k / 10 ^ d * 10 ^ 20 = 10 ^ (k + 20) / 10 ^ d := by
    rw [pow_add]
    ring
  rw [h2, hsplit]
  rw [mul_comm ((10:ℚ) ^ d), mul_div_assoc, div_self hd0, mul_one]

/-- Once the exponent gap exceeds the 20 decimal places, dividedBy of powers
of ten rounds all the way down to zero. -/
theorem bnDiv_pow_large (k d : ℕ) (hd : k + 20 < d) :
    bnDiv (num ((10:ℚ) ^ k)) (num ((10:ℚ) ^ d)) = num 0 := by
  have hd0 : ((10:ℚ) ^ d) ≠ 0 := pow_ne_zero _ (by norm_num)
  simp only [bnDiv]
  rw [if_neg hd0]
  congr 1
  unfold roundDpQ
  have ht : (10:ℚ) ^ k / 10 ^ d * 10 ^ 20 = 10 ^ (k + 20) / 10 ^ d := by
    rw [pow_add]
    ring
  rw [ht]
  have h1 : (0:ℚ) < 10 ^ (k + 20) / 10 ^ d := by positivity
  have h2 : (10:ℚ) ^ (k + 20) / 10 ^ d ≤ 1 / 10 := by
    rw [div_le_div_iff₀ (by positivity) (by norm_num)]
    rw [one_mul, ← pow_succ]
    exact pow_le_pow_right₀ (by norm_num) (by omega)
  have h3 : roundQ RoundMode.halfUp ((10:ℚ) ^ (k + 20) / 10 ^ d) = 0 := by
    simp only [roundQ]
    rw [if_pos h1.le, Int.floor_eq_zero_iff]
    simp only [Set.mem_Ico]
    constructor <;> linarith
  rw [h3]
  norm_num

/-- The comparison getUnit performs against a rounded quotient of powers of
ten agrees with the comparison against the exact quotient, for any nonzero
integral magnitude. -/
theorem gte_find_equiv (z : ℤ) (hz : z ≠ 0) (k d : ℕ) :
    bnGTE (num (z:ℚ)) (bnDiv (num ((10:ℚ) ^ k)) (num ((10:ℚ) ^ d))) =
      decide ((10:ℚ) ^ k / 10 ^ d ≤ (z:ℚ)) := by
  by_cases hkd : d ≤ k + 20
  · rw [bnDiv_pow_pow k d hkd]
    simp [bnGTE]
  · push_neg at hkd
    rw [bnDiv_pow_large k d hkd]
    simp only [bnGTE]
    rw [decide_eq_decide]
    have hpos : (0:ℚ) < 10 ^ k / 10 ^ d := by positivity
    have hlt : (10:ℚ) ^ k / 10 ^ d < 1 := by
      rw [div_lt_one (by positivity)]
      exact pow_lt_pow_right₀ (by norm_num) (by omega)
    constructor
    · intro h0
      have h1 : (1:ℚ) ≤ (z:ℚ) := by
        have : 1 ≤ z := by
          rcases ((Int.cast_nonneg (R := ℚ)).mp h0).lt_or_eq with h | h
          · omega
          · omega
        exact_mod_cast this
      linarith
    · intro h
      have : (0:ℚ) < (z:ℚ) := lt_of_lt_of_le hpos h
      linarith

/-- find? only looks at the predicate's value on the members of the list. -/
theorem find?_congr_units (l : List Unit) (p q : Unit → Bool) (h : ∀ u ∈ l, p u = q u) :
    l.find? p = l.find? q := by
  induction l with
  | nil => rfl
  | cons a t ih =>
      simp only [List.find?_cons, h a (List.mem_cons_self a t)]
      cases hq : q a
      · simp only [hq]
        exact ih fun u hu => h u (List.mem_cons_of_mem a hu)
      · simp only [hq]

/-- toUnit on an integral magnitude and a unit of the table is the exact
unrounded quotient by the unit's atomic multiple. -/
theorem toUnit_named (z : ℤ) (u : Unit) (hu : u ∈ ALL_UNITS) :
    Wei.toUnit ⟨num (z:ℚ)⟩ u = num ((z:ℚ) / u.weis) := by
  simp only [ALL_UNITS, List.mem_cons, List.not_mem_nil, or_false] at hu
  rcases hu with rfl | rfl | rfl | rfl | rfl | rfl | rfl
  · simp only [Wei.toUnit]
    rw [if_neg (by decide)]
    exact bnDiv_intCast_pow z 18 (by norm_num)
  · simp only [Wei.toUnit]
    rw [if_neg (by decide)]
    exact bnDiv_intCast_pow z 15 (by norm_num)
  · simp only [Wei.toUnit]
    rw [if_neg (by decide)]
    exact bnDiv_intCast_pow z 12 (by norm_num)
  · simp only [Wei.toUnit]
    rw [if_neg (by decide)]
    exact bnDiv_intCast_pow z 9 (by norm_num)
  · simp only [Wei.toUnit]
    rw [if_neg (by decide)]
    exact bnDiv_intCast_pow z 6 (by norm_num)
  · simp only [Wei.toUnit]
    rw [if_neg (by decide)]
    exact bnDiv_intCast_pow z 3 (by norm_num)
  · simp [Wei.toUnit, Units.WEI]

/-- C7: toUnit with the atomic unit returns the raw stored magnitude
unchanged, and toUnit with any named unit of the table is the exact
unrounded quotient of the magnitude by the unit's atomic multiple (the
implicit 20-decimal-place rounding of dividedBy never bites for these
divisors). -/
theorem wei_toUnit_exact :
    (∀ b : BigNum, Wei.toUnit ⟨b⟩ Units.WEI = b) ∧
    (∀ (z : ℤ) (u : Unit), u ∈ ALL_UNITS → Wei.toUnit ⟨num (z:ℚ)⟩ u = num ((z:ℚ) / u.weis)) :=
  ⟨fun b => by simp [Wei.toUnit], toUnit_named⟩

/-- Witness for C7 with 5 atomic units viewed in Gwei. -/
theorem wei_toUnit_exact_witness :
    Units.GWEI ∈ ALL_UNITS ∧
    Wei.toUnit ⟨num ((5:ℤ):ℚ)⟩ Units.GWEI = num (((5:ℤ):ℚ) / Units.GWEI.weis) :=
  ⟨by simp [ALL_UNITS], wei_toUnit_exact.2 5 Units.GWEI (by simp [ALL_UNITS])⟩

/-- C3: getUnit on a zero magnitude is always the Ether unit; on a nonzero
integral magnitude it is the first candidate, scanning in list order, whose
atomic multiple divided exactly by ten to the precision digits is at most
the magnitude, with the atomic unit as the fallback (power-of-ten
candidates, as all units are). -/
theorem wei_getUnit_spec :
    (∀ (digits : ℕ) (accepted : List Unit),
      Wei.getUnit ⟨num 0⟩ digits accepted = Units.ETHER) ∧
    (∀ (z : ℤ), z ≠ 0 → ∀ (digits : ℕ) (accepted : List Unit),
      (∀ u ∈ accepted, ∃ k : ℕ, u.weis = 10 ^ k) →
      Wei.getUnit ⟨num (z:ℚ)⟩ digits accepted =
        (accepted.find? (fun u => decide (u.weis / 10 ^ digits ≤ (z:ℚ)))).getD Units.WEI) := by
  constructor
  · intro digits accepted
    simp [Wei.getUnit, bnEq]
  · intro z hz digits accepted hacc
    have hz1 : ¬ ((z:ℚ) = 0) := by exact_mod_cast hz
    have hne : bnEq (num (z:ℚ)) (num 0) = false := by simp [bnEq, hz1]
    simp only [Wei.getUnit, hne, Bool.false_eq_true, if_false]
    rw [find?_congr_units accepted _ (fun u => decide (u.weis / 10 ^ digits ≤ (z:ℚ)))
      (fun u hu => by
        obtain ⟨k, hk⟩ := hacc u hu
        show bnGTE (num (z:ℚ)) (bnDiv (num u.weis) (num ((10:ℚ) ^ digits))) =
          decide (u.weis / 10 ^ digits ≤ (z:ℚ))
        rw [hk]
        exact gte_find_equiv z hz k digits)]
    cases hf : accepted.find? (fun u => decide (u.weis / 10 ^ digits ≤ (z:ℚ))) <;>
      simp [hf, Option.getD]

/-- Witness for C3 at magnitude 1 with zero precision digits over the full
table: only the atomic unit qualifies, and getUnit agrees with the exact
characterization. -/
theorem wei_getUnit_spec_witness :
    Wei.getUnit ⟨num ((1:ℤ):ℚ)⟩ 0 ALL_UNITS =
      (ALL_UNITS.find? (fun u => decide (u.weis / 10 ^ (0:ℕ) ≤ ((1:ℤ):ℚ)))).getD Units.WEI :=
  wei_getUnit_spec.2 1 (by decide) 0 ALL_UNITS
    (fun u hu => by
      simp only [ALL_UNITS, List.mem_cons, List.not_mem_nil, or_false] at hu
      rcases hu with rfl | rfl | rfl | rfl | rfl | rfl | rfl
      · exact ⟨18, rfl⟩
      · exact ⟨15, rfl⟩
      · exact ⟨12, rfl⟩
      · exact ⟨9, rfl⟩
      · exact ⟨6, rfl⟩
      · exact ⟨3, rfl⟩
      · exact ⟨0, rfl⟩)

/-- Every character the digit emitter pushes satisfies any property shared
by the digit characters of the base. -/
theorem natToDigitsAux_forall (b : ℕ) (hb : 0 < b) (P : Char → Prop)
    (hd : ∀ m, m < b → P (Nat.digitChar m)) :
    ∀ (fuel n : ℕ) (acc : List Char), (∀ c ∈ acc, P c) →
      ∀ c ∈ natToDigitsAux b fuel n acc, P c := by
  intro fuel
  induction fuel with
  | zero =>
      intro n acc hacc c hc
      simp only [natToDigitsAux] at hc
      exact hacc c hc
  | succ f ih =>
      intro n acc hacc c hc
      simp only [natToDigitsAux] at hc
      by_cases hn : n < b
      · rw [if_pos hn] at hc
        rcases List.mem_cons.mp hc with rfl | hc2
        · exact hd n hn
        · exact hacc c hc2
      · rw [if_neg hn] at hc
        refine ih (n / b) _ ?_ c hc
        intro c2 hc2
        rcases List.mem_cons.mp hc2 with rfl | hc3
        · exact hd _ (Nat.mod_lt n hb)
        · exact hacc c2 hc3

/-- The digit emitter never returns an empty list from a nonempty
accumulator. -/
theorem natToDigitsAux_ne_nil (b : ℕ) :
    ∀ (fuel n : ℕ) (acc : List Char), acc ≠ [] → natToDigitsAux b fuel n acc ≠ [] := by
  intro fuel
  induction fuel with
  | zero =>
      intro n acc h
      simpa [natToDigitsAux] using h
  | succ f ih =>
      intro n acc h
      simp only [natToDigitsAux]
      by_cases hn : n < b
      · rw [if_pos hn]
        exact List.cons_ne_nil _ _
      · rw [if_neg hn]
        exact ih _ _ (List.cons_ne_nil _ _)

/-- Decimal renderings are never empty. -/
theorem natDecChars_ne_nil (n : ℕ) : natDecChars n ≠ [] := by
  unfold natDecChars
  simp only [natToDigitsAux]
  by_cases hn : n < 10
  · rw [if_pos hn]
    exact List.cons_ne_nil _ _
  · rw [if_neg hn]
    exact natToDigitsAux_ne_nil 10 n (n / 10) _ (List.cons_ne_nil _ _)

/-- Hex renderings use only the lowercase base-16 alphabet. -/
theorem natHexChars_all_hex (n : ℕ) :
    (natHexChars n).all (fun c => hexAlphabet.contains c) = true := by
  rw [List.all_eq_true]
  intro c hc
  exact natToDigitsAux_forall 16 (by norm_num) (fun c => hexAlphabet.contains c = true)
    (by decide) (n + 1) n [] (by simp) c hc

/-- Decimal renderings use only the base-10 alphabet. -/
theorem natDecChars_digits (n : ℕ) : ∀ c ∈ natDecChars n, c ∈ decAlphabet :=
  natToDigitsAux_forall 10 (by norm_num) (fun c => c ∈ decAlphabet)
    (by decide) (n + 1) n [] (by simp)

/-- The empty string is a left identity of append. -/
theorem str_empty_append (s : String) : "" ++ s = s := by
  apply String.ext
  rw [String.data_append]
  exact List.nil_append _

/-- String append is associative. -/
theorem str_append_assoc (a b c : String) : a ++ b ++ c = a ++ (b ++ c) := by
  apply String.ext
  simp [String.data_append, List.append_assoc]

/-- toString(16) of an integral finite value: the sign, then the lowercase
hex digits of the absolute value. -/
theorem bnToString16_intCast (z : ℤ) :
    bnToString16 (num (z:ℚ)) = (if z < 0 then "-" else "") ++ natToHex z.natAbs := by
  simp only [bnToString16, Rat.num_intCast]
  by_cases hz : z < 0
  · rw [if_pos (by exact_mod_cast hz : (z:ℚ) < 0), if_pos hz]
  · rw [if_neg (by exact_mod_cast hz : ¬ (z:ℚ) < 0), if_neg hz]

/-- isNegative of an integral magnitude is exactly the sign test, the zero
exclusion being vacuous on the integers. -/
theorem wei_isNegative_intCast (z : ℤ) :
    Wei.isNegative ⟨num (z:ℚ)⟩ = decide (z < 0) := by
  simp only [Wei.isNegative, Wei.isZero, bnIsNeg, bnIsZero]
  by_cases hz : z < 0
  · have h1 : (z:ℚ) < 0 := by exact_mod_cast hz
    have h2 : ¬ ((z:ℚ) = 0) := by exact_mod_cast (by omega : ¬ z = 0)
    simp [h1, h2, hz]
  · have h1 : ¬ ((z:ℚ) < 0) := by exact_mod_cast hz
    simp [h1, hz]

/-- abs of an integral magnitude. -/
theorem bnAbs_intCast (z : ℤ) : bnAbs (num (z:ℚ)) = num ((|z| : ℤ) : ℚ) := by
  simp only [bnAbs]
  rw [Int.cast_abs]

/-- toHex of an integral magnitude: optional leading minus, the 0x prefix,
then the lowercase hex digits of the absolute value. -/
theorem wei_toHex_intCast (z : ℤ) :
    Wei.toHex ⟨num (z:ℚ)⟩ = (if z < 0 then "-" else "") ++ "0x" ++ natToHex z.natAbs := by
  simp only [Wei.toHex, wei_isNegative_intCast, bnAbs_intCast, bnToString16_intCast]
  rw [if_neg (not_lt.mpr (abs_nonneg z)), Int.natAbs_abs, str_empty_append]
  by_cases hz : z < 0
  · simp [hz]
  · simp [hz]

/-- C4: toHex renders the magnitude as the 0x prefix followed by the
lowercase hex digits of the absolute value, with the minus sign placed
before the prefix exactly for negative values; zero renders as 0x0. -/
theorem wei_toHex_spec :
    (∀ z : ℤ, Wei.toHex ⟨num (z:ℚ)⟩ = (if z < 0 then "-" else "") ++ "0x" ++ natToHex z.natAbs) ∧
    (∀ n : ℕ, (natHexChars n).all (fun c => hexAlphabet.contains c) = true) ∧
    Wei.toHex ⟨num 0⟩ = "0x0" ∧
    Wei.toHex ⟨num (-1 : ℚ)⟩ = "-0x1" ∧
    Wei.toHex ⟨num (255 : ℚ)⟩ = "0xff" := by
  refine ⟨wei_toHex_intCast, natHexChars_all_hex, ?_, ?_, ?_⟩
  · rw [show (0:ℚ) = ((0:ℤ):ℚ) by norm_num, wei_toHex_intCast 0]
    decide
  · rw [show (-1:ℚ) = ((-1:ℤ):ℚ) by norm_num, wei_toHex_intCast (-1)]
    decide
  · rw [show (255:ℚ) = ((255:ℤ):ℚ) by norm_num, wei_toHex_intCast 255]
    decide

/-- C10: the format module's toHex puts the 0x prefix first and lets the
big-number rendering carry the sign, so negative inputs show the minus sign
after the prefix, unlike Wei's toHex which puts it before. -/
theorem format_toHex_sign_placement :
    (∀ z : ℤ, z < 0 →
      formatToHex (num (z:ℚ)) = "0x-" ++ natToHex z.natAbs ∧
      Wei.toHex ⟨num (z:ℚ)⟩ = "-0x" ++ natToHex z.natAbs) ∧
    (∀ n : ℕ, formatToHex (num (n:ℚ)) = "0x" ++ natToHex n) ∧
    formatToHex (num 0) = "0x0" ∧
    formatToHex (num (-1 : ℚ)) = "0x-1" ∧
    formatToHex (num (255 : ℚ)) = "0xff" := by
  refine ⟨?_, ?_, ?_, ?_, ?_⟩
  · intro z hz
    constructor
    · simp only [formatToHex, bnToString16_intCast, if_pos hz]
      rw [show ("0x-" : String) = "0x" ++ "-" from by decide, str_append_assoc]
    · rw [wei_toHex_intCast z, if_pos hz,
        show ("-0x" : String) = "-" ++ "0x" from by decide]
  · intro n
    have h1 : ((n:ℚ)).num = (n : ℤ) := Rat.num_natCast n
    simp only [formatToHex, bnToString16, h1]
    rw [if_neg (not_lt.mpr (by positivity : (0:ℚ) ≤ (n:ℚ))), str_empty_append,
      Int.natAbs_ofNat]
  · decide
  · decide
  · decide

/-- C6: a successful response whose hash matches no registry entry under
case-insensitive comparison classifies as the unknown chain with id zero, a
normal success; a transport failure propagates unchanged. Modelled from the
spec, as the detector source is not under src. -/
theorem nodeChecker_check_spec :
    (∀ (ε : Type) (registry : List ChainRecord) (h : String),
      registry.find? (fun r => normalizeHash r.referenceBlockHash == normalizeHash h) = none →
      checkResponse registry (Except.ok h) = (Except.ok ⟨"unknown", 0⟩ : Except ε ChainResult)) ∧
    (∀ (ε : Type) (registry : List ChainRecord) (e : ε),
      checkResponse registry (Except.error e) = (Except.error e : Except ε ChainResult)) := by
  constructor
  · intro ε registry h hf
    simp only [checkResponse, hf]
  · intro ε registry e
    rfl

/-- Witness for C6: a one-entry registry, an unmatched hash (differing not
only by case), and a rejecting transport. -/
theorem nodeChecker_check_spec_witness :
    ([⟨"0xAB", "classic", 61⟩] : List ChainRecord).find?
      (fun r => normalizeHash r.referenceBlockHash == normalizeHash "0xCD") = none ∧
    checkResponse [⟨"0xAB", "classic", 61⟩] (Except.ok "0xCD") =
      (Except.ok ⟨"unknown", 0⟩ : Except String ChainResult) ∧
    checkResponse [⟨"0xAB", "classic", 61⟩] (Except.error "boom") =
      (Except.error "boom" : Except String ChainResult) :=
  ⟨by decide,
    nodeChecker_check_spec.1 String [⟨"0xAB", "classic", 61⟩] "0xCD" (by decide),
    nodeChecker_check_spec.2 String [⟨"0xAB", "classic", 61⟩] "boom"⟩

/-- Witness for C10 at the negative input -2: the format module renders the
sign after the prefix while Wei renders it before. -/
theorem format_toHex_sign_placement_witness :
    ((-2 : ℤ) < 0) ∧
    formatToHex (num ((-2:ℤ):ℚ)) = "0x-" ++ natToHex (Int.natAbs (-2)) ∧
    Wei.toHex ⟨num ((-2:ℤ):ℚ)⟩ = "-0x" ++ natToHex (Int.natAbs (-2)) :=
  ⟨by norm_num, (format_toHex_sign_placement.1 (-2) (by norm_num)).1,
    (format_toHex_sign_placement.1 (-2) (by norm_num)).2⟩

/-- The digit characters of the base-10 alphabet. -/
theorem digitChar_mem_dec : ∀ m, m < 10 → Nat.digitChar m ∈ decAlphabet := by decide

/-- No decimal digit is the point character. -/
theorem dec_ne_dot : ∀ c ∈ decAlphabet, c ≠ '.' := by decide

/-- No decimal digit is the minus character either. -/
theorem dec_ne_minus : ∀ c ∈ decAlphabet, c ≠ '-' := by decide

/-- fracDigits always emits exactly the requested number of characters. -/
theorem fracDigits_length (d : ℕ) : ∀ n, (fracDigits n d).length = d := by
  induction d with
  | zero => intro n; rfl
  | succ e ih =>
      intro n
      simp [fracDigits, ih]

/-- fracDigits emits only decimal digits. -/
theorem fracDigits_digits (d : ℕ) : ∀ n, ∀ c ∈ fracDigits n d, c ∈ decAlphabet := by
  induction d with
  | zero =>
      intro n c hc
      simp [fracDigits] at hc
  | succ e ih =>
      intro n c hc
      simp only [fracDigits] at hc
      rcases List.mem_append.mp hc with h | h
      · exact ih _ c h
      · rcases List.mem_singleton.mp h with rfl
        exact digitChar_mem_dec _ (Nat.mod_lt _ (by norm_num))

/-- A Wei is determined by its stored value. -/
theorem wei_eq_of_value {w : Wei} {b : BigNum} (h : w.value = b) : w = ⟨b⟩ := by
  cases w
  cases h
  rfl

/-- Evaluation form of toFixed once the scaled rounding is known to be a
concrete integer. -/
theorem toFixedChars_eval (x : ℚ) (d : ℕ) (m : ℤ) (hm : x * 10 ^ d = (m : ℚ)) :
    toFixedChars x d = (if m < 0 then ['-'] else []) ++
      (if d = 0 then natDecChars m.natAbs
       else natDecChars (m.natAbs / 10 ^ d) ++ '.' :: fracDigits (m.natAbs % 10 ^ d) d) := by
  simp only [toFixedChars, hm, roundQ_intCast]
  by_cases hd : d = 0 <;> simp [hd]

/-- Structure of a toFixed rendering with at least one fractional digit: a
nonempty prefix of sign and integer digits, the point, and exactly the
requested count of fractional digits. -/
theorem toFixedChars_succ (x : ℚ) (e : ℕ) :
    ∃ A F, toFixedChars x (e + 1) = A ++ '.' :: F ∧ A ≠ [] ∧ F.length = e + 1 ∧
      (∀ c ∈ A, c = '-' ∨ c ∈ decAlphabet) ∧ (∀ c ∈ F, c ∈ decAlphabet) := by
  refine ⟨(if roundQ RoundMode.halfUp (x * 10 ^ (e + 1)) < 0 then ['-'] else []) ++
      natDecChars ((roundQ RoundMode.halfUp (x * 10 ^ (e + 1))).natAbs / 10 ^ (e + 1)),
    fracDigits ((roundQ RoundMode.halfUp (x * 10 ^ (e + 1))).natAbs % 10 ^ (e + 1)) (e + 1),
    ?_, ?_, fracDigits_length _ _, ?_, fracDigits_digits _ _⟩
  · simp only [toFixedChars]
    rw [if_neg (Nat.succ_ne_zero e), List.append_assoc]
  · intro h
    exact natDecChars_ne_nil _ (List.append_eq_nil.mp h).2
  · intro c hc
    rcases List.mem_append.mp hc with h | h
    · by_cases hs : roundQ RoundMode.halfUp (x * 10 ^ (e + 1)) < 0
      · rw [if_pos hs] at h
        exact Or.inl (List.mem_singleton.mp h)
      · rw [if_neg hs] at h
        simp at h
    · exact Or.inr (natDecChars_digits _ c h)

/-- findIdx? finds the point right after a point-free prefix, for any start
index. -/
theorem findIdx?_dot_aux (F : List Char) :
    ∀ (A : List Char) (i : ℕ), (∀ c ∈ A, c ≠ '.') →
      List.findIdx? (fun c => c == '.') (A ++ '.' :: F) i = some (A.length + i) := by
  intro A
  induction A with
  | nil =>
      intro i h
      rw [List.nil_append, List.findIdx?_cons, if_pos (by simp)]
      simp
  | cons a t ih =>
      intro i h
      have ha : ¬ ((a == '.') = true) := by
        simp only [beq_iff_eq]
        exact h a (List.mem_cons_self a t)
      rw [List.cons_append, List.findIdx?_cons, if_neg ha,
        ih (i + 1) (fun c hc => h c (List.mem_cons_of_mem a hc))]
      congr 1
      simp only [List.length_cons]
      omega

/-- The point index of a rendering made of a point-free prefix, the point,
and a suffix. -/
theorem pointIdx_append (A F : List Char) (hA : ∀ c ∈ A, c ≠ '.') :
    pointIdx (A ++ '.' :: F) = (A.length : ℤ) := by
  simp only [pointIdx]
  rw [findIdx?_dot_aux F A 0 hA]
  simp

/-- The point index of a point-free list is minus one. -/
theorem pointIdx_no_dot (cs : List Char) (h : ∀ c ∈ cs, c ≠ '.') : pointIdx cs = -1 := by
  simp only [pointIdx]
  rw [List.findIdx?_eq_none_iff.mpr]
  intro c hc
  simp only [beq_eq_false_iff_ne]
  exact h c hc

/-- takeWhile stops exactly at the point after consuming a point-free
prefix. -/
theorem takeWhile_until_dot (F rest : List Char) (hF : ∀ c ∈ F, c ≠ '.') :
    (F ++ '.' :: rest).takeWhile (fun c => c != '.') = F := by
  induction F with
  | nil =>
      rw [List.nil_append, List.takeWhile_cons, if_neg (by simp)]
  | cons a t ih =>
      have ha : ((a != '.') = true) := by
        simp only [bne_iff_ne]
        exact hF a (List.mem_cons_self a t)
      rw [List.cons_append, List.takeWhile_cons, if_pos ha,
        ih (fun c hc => hF c (List.mem_cons_of_mem a hc))]

/-- take over an appended list, cut one past the prefix. -/
theorem take_succ_append (A F : List Char) (c : Char) :
    (A ++ c :: F).take (A.length + 1) = A ++ [c] := by
  induction A with
  | nil => simp
  | cons a t ih =>
      simp only [List.cons_append, List.length_cons, List.take_succ_cons, ih]

/-- Exit bounds of the trimming loop: starting anywhere right of the point
of the rendering, the loop stays right of the point and stops on a
character that is not a zero digit. -/
theorem trimIndex_spec (cs : List Char) (point : ℕ) (hp : cs.getD point ' ' = '.') :
    ∀ i, point + 1 ≤ i →
      point + 1 ≤ trimIndex cs point i ∧ trimIndex cs point i ≤ i ∧
        cs.getD (trimIndex cs point i - 1) ' ' ≠ '0' := by
  intro i
  induction i with
  | zero =>
      intro h
      exact absurd h (by omega)
  | succ j ih =>
      intro h
      by_cases hc : j + 1 > point ∧ cs.getD j ' ' = '0'
      · simp only [trimIndex, if_pos hc]
        rcases hc with ⟨hc1, hc2⟩
        have hj : point + 1 ≤ j := by
          rcases Nat.lt_or_ge point j with h1 | h1
          · omega
          · have hjp : j = point := by omega
            rw [hjp] at hc2
            exact absurd (hp.symm.trans hc2) (by decide)
        obtain ⟨a1, a2, a3⟩ := ih hj
        exact ⟨a1, by omega, a3⟩
      · simp only [trimIndex, if_neg hc]
        refine ⟨h, le_refl _, ?_⟩
        intro h0
        exact hc ⟨by omega, h0⟩

/-- The last element of a nonempty take is the element just before the cut. -/
theorem getLast?_take_eq (cs : List Char) (r : ℕ) (h1 : 0 < r) (h2 : r ≤ cs.length) :
    (cs.take r).getLast? = some (cs.getD (r - 1) ' ') := by
  rw [List.getLast?_eq_getElem?, List.length_take]
  have hmin : min r cs.length = r := min_eq_left h2
  rw [hmin, List.getElem?_take, if_pos (by omega)]
  have hlt : r - 1 < cs.length := by omega
  rw [List.getElem?_eq_getElem hlt, List.getD_eq_getElem cs ' ' hlt]

/-- getD at an in-range index is a member. -/
theorem getD_mem (cs : List Char) (i : ℕ) (h : i < cs.length) : cs.getD i ' ' ∈ cs := by
  rw [List.getD_eq_getElem cs ' ' h]
  exact List.getElem_mem h

/-- A toFixed rendering with zero fractional digits contains no point. -/
theorem toFixedChars_zero_no_dot (x : ℚ) : ∀ c ∈ toFixedChars x 0, c ≠ '.' := by
  intro c hc
  simp only [toFixedChars] at hc
  rw [if_pos trivial] at hc
  rcases List.mem_append.mp hc with h | h
  · by_cases hm : roundQ RoundMode.halfUp (x * 10 ^ 0) < 0
    · rw [if_pos hm] at h
      rw [List.mem_singleton.mp h]
      decide
    · rw [if_neg hm] at h
      simp at h
  · exact dec_ne_dot c (natDecChars_digits _ c h)

/-- Fixed-mode toString keeps the point and exactly the requested number of
fractional digits. -/
theorem toStringChars_fixed (z : ℤ) (u : Unit) (hu : u ∈ ALL_UNITS) (e : ℕ) :
    '.' ∈ Wei.toStringChars ⟨num (z:ℚ)⟩ u (e + 1) false true ∧
    ((Wei.toStringChars ⟨num (z:ℚ)⟩ u (e + 1) false true).reverse.takeWhile
      (fun c => c != '.')).length = e + 1 := by
  obtain ⟨A, F, hAF, hA0, hFlen, hAc, hFc⟩ := toFixedChars_succ ((z:ℚ) / u.weis) e
  have htu : Wei.toUnit ⟨num (z:ℚ)⟩ u = num ((z:ℚ) / u.weis) := toUnit_named z u hu
  have hout : Wei.toStringChars ⟨num (z:ℚ)⟩ u (e + 1) false true = A ++ '.' :: F := by
    simp only [Wei.toStringChars, htu, bnToFixedChars, hAF]
    rw [if_neg (by decide : ¬ (false = true)), if_neg (fun hc => hc.1 trivial)]
  constructor
  · rw [hout]
    exact List.mem_append.mpr (Or.inr (List.mem_cons_self _ _))
  · rw [hout, List.reverse_append, List.reverse_cons, List.append_assoc, List.singleton_append,
      takeWhile_until_dot F.reverse A.reverse
        (fun c hc => dec_ne_dot c (hFc c (List.mem_reverse.mp hc))),
      List.length_reverse]
    exact hFlen

/-- The trimming step of toString never leaves a trailing zero digit or a
trailing point when a point remains in the output. -/
theorem trimmed_no_trailing (A F out : List Char) (hA0 : A ≠ [])
    (hF0 : 0 < F.length) (hAdot : ∀ c ∈ A, c ≠ '.') (hFc : ∀ c ∈ F, c ∈ decAlphabet)
    (hout : out = (if trimIndex (A ++ '.' :: F) A.length (A ++ '.' :: F).length <
        (A ++ '.' :: F).length then
        (if ((A ++ '.' :: F).take (trimIndex (A ++ '.' :: F) A.length
            (A ++ '.' :: F).length)).getLast? = some '.' then
          ((A ++ '.' :: F).take (trimIndex (A ++ '.' :: F) A.length
            (A ++ '.' :: F).length)).dropLast
        else (A ++ '.' :: F).take (trimIndex (A ++ '.' :: F) A.length (A ++ '.' :: F).length))
      else A ++ '.' :: F))
    (hdot : '.' ∈ out) :
    out.getLast? ≠ some '0' ∧ out.getLast? ≠ some '.' := by
  set cs := A ++ '.' :: F with hcs
  have hlen : cs.length = A.length + F.length + 1 := by
    have h : cs.length = A.length + (F.length + 1) := by
      rw [hcs]
      simp
    omega
  have hApos : 0 < A.length := List.length_pos.mpr hA0
  have hp : cs.getD A.length ' ' = '.' := by
    rw [hcs, List.getD_append_right A ('.' :: F) ' ' A.length (le_refl _)]
    simp
  obtain ⟨hr1, hr2, hr3⟩ := trimIndex_spec cs A.length hp cs.length (by omega)
  set i := trimIndex cs A.length cs.length with hi
  by_cases hrl : i < cs.length
  · rw [if_pos hrl] at hout
    have hlast : (cs.take i).getLast? = some (cs.getD (i - 1) ' ') :=
      getLast?_take_eq cs i (by omega) (by omega)
    by_cases hdot2 : (cs.take i).getLast? = some '.'
    · exfalso
      rw [if_pos hdot2] at hout
      have hc0 : cs.getD (i - 1) ' ' = '.' := by
        rw [hlast] at hdot2
        exact Option.some_inj.mp hdot2
      have hieq : i = A.length + 1 := by
        by_contra hne
        have hgt : A.length < i - 1 := by omega
        have hmem : cs.getD (i - 1) ' ' ∈ F := by
          rw [hcs, List.getD_append_right A ('.' :: F) ' ' (i - 1) (by omega)]
          have hk : i - 1 - A.length = (i - 2 - A.length) + 1 := by omega
          rw [hk, List.getD_cons_succ]
          exact getD_mem F _ (by omega)
        exact dec_ne_dot _ (hFc _ hmem) hc0
      have htake : cs.take i = A ++ ['.'] := by
        rw [hieq, hcs, take_succ_append]
      rw [htake, List.dropLast_concat] at hout
      rw [hout] at hdot
      exact hAdot '.' hdot rfl
    · rw [if_neg hdot2] at hout
      rw [hout, hlast]
      constructor
      · intro hcon
        exact hr3 (Option.some_inj.mp hcon)
      · rw [← hlast]
        exact hdot2
  · rw [if_neg hrl] at hout
    have hieq : i = cs.length := by omega
    have hlast : cs.getLast? = some (cs.getD (cs.length - 1) ' ') := by
      have h := getLast?_take_eq cs cs.length (by omega) (le_refl _)
      rw [List.take_length] at h
      exact h
    rw [hout, hlast]
    constructor
    · intro hcon
      apply hr3
      rw [hieq]
      exact Option.some_inj.mp hcon
    · intro hcon
      have hc0 : cs.getD (cs.length - 1) ' ' = '.' := Option.some_inj.mp hcon
      have hmem : cs.getD (cs.length - 1) ' ' ∈ F := by
        rw [hcs, List.getD_append_right A ('.' :: F) ' ' (cs.length - 1) (by omega)]
        have hk : cs.length - 1 - A.length = (cs.length - 2 - A.length) + 1 := by omega
        rw [hk, List.getD_cons_succ]
        exact getD_mem F _ (by omega)
      exact dec_ne_dot _ (hFc _ hmem) hc0

/-- Non-fixed toString output, when it still contains a point, ends neither
with a zero digit nor with the point. -/
theorem toStringChars_trimmed (z : ℤ) (u : Unit) (hu : u ∈ ALL_UNITS) (d : ℕ)
    (hdot : '.' ∈ Wei.toStringChars ⟨num (z:ℚ)⟩ u d false false) :
    (Wei.toStringChars ⟨num (z:ℚ)⟩ u d false false).getLast? ≠ some '0' ∧
    (Wei.toStringChars ⟨num (z:ℚ)⟩ u d false false).getLast? ≠ some '.' := by
  have htu : Wei.toUnit ⟨num (z:ℚ)⟩ u = num ((z:ℚ) / u.weis) := toUnit_named z u hu
  cases d with
  | zero =>
      exfalso
      have hnod : ∀ c ∈ toFixedChars ((z:ℚ) / u.weis) 0, c ≠ '.' := toFixedChars_zero_no_dot _
      have hout : Wei.toStringChars ⟨num (z:ℚ)⟩ u 0 false false =
          toFixedChars ((z:ℚ) / u.weis) 0 := by
        simp only [Wei.toStringChars, htu, bnToFixedChars, pointIdx_no_dot _ hnod]
        rw [if_neg (by decide : ¬ (false = true)),
          if_neg (fun hc => absurd hc.2 (by norm_num))]
      rw [hout] at hdot
      exact hnod '.' hdot rfl
  | succ e =>
      obtain ⟨A, F, hAF, hA0, hFlen, hAc, hFc⟩ := toFixedChars_succ ((z:ℚ) / u.weis) e
      have hAdot : ∀ c ∈ A, c ≠ '.' := by
        intro c hc
        rcases hAc c hc with h | h
        · rw [h]
          decide
        · exact dec_ne_dot c h
      have hpt : pointIdx (A ++ '.' :: F) = (A.length : ℤ) := pointIdx_append A F hAdot
      have hApos : 0 < A.length := List.length_pos.mpr hA0
      have hout : Wei.toStringChars ⟨num (z:ℚ)⟩ u (e + 1) false false =
          (if trimIndex (A ++ '.' :: F) A.length (A ++ '.' :: F).length <
              (A ++ '.' :: F).length then
            (if ((A ++ '.' :: F).take (trimIndex (A ++ '.' :: F) A.length
                (A ++ '.' :: F).length)).getLast? = some '.' then
              ((A ++ '.' :: F).take (trimIndex (A ++ '.' :: F) A.length
                (A ++ '.' :: F).length)).dropLast
            else (A ++ '.' :: F).take (trimIndex (A ++ '.' :: F) A.length
              (A ++ '.' :: F).length))
          else A ++ '.' :: F) := by
        simp only [Wei.toStringChars, htu, bnToFixedChars, hAF, hpt]
        rw [if_neg (by decide : ¬ (false = true)),
          if_pos (⟨by decide, by exact_mod_cast hApos⟩ :
            (¬ (false = true)) ∧ (A.length : ℤ) > 0),
          Int.toNat_ofNat]
      rw [hout] at hdot ⊢
      exact trimmed_no_trailing A F _ hA0 (by omega) hAdot hFc rfl hdot

/-- Evaluation of one Ether displayed in Ether with three decimals and
trimming: the three zero decimals are trimmed together with the point. -/
theorem toString_one_ether_eval :
    Wei.toString (mkWei (num 1) Units.ETHER) Units.ETHER 3 false false = "1" := by
  have hv : (mkWei (num (1:ℚ)) Units.ETHER).value = num (((10 ^ 18 : ℤ)):ℚ) := by
    rw [mkWei_scaled 1 Units.ETHER (by decide)]
    congr 1
    rw [show (1:ℚ) * Units.ETHER.weis = (((10 ^ 18 : ℤ)):ℚ) by norm_num [Units.ETHER],
      roundQ_intCast]
  have hw : mkWei (num (1:ℚ)) Units.ETHER = ⟨num (((10 ^ 18 : ℤ)):ℚ)⟩ := wei_eq_of_value hv
  have htu : Wei.toUnit ⟨num (((10 ^ 18 : ℤ)):ℚ)⟩ Units.ETHER = num (1:ℚ) := by
    rw [toUnit_named (10 ^ 18) Units.ETHER (by simp [ALL_UNITS])]
    congr 1
    norm_num [Units.ETHER]
  simp only [Wei.toString, Wei.toStringChars, hw, htu, bnToFixedChars,
    toFixedChars_eval (1:ℚ) 3 1000 (by norm_num)]
  decide

/-- Evaluation of 1.5 Ether worth of atomic units displayed in Ether with
five fixed decimals: the trailing zeros are preserved. -/
theorem toString_three_halves_fixed_eval :
    Wei.toString (mkWei (num 1500000000000000000) Units.WEI) Units.ETHER 5 false true =
      "1.50000" := by
  have hv : (mkWei (num (1500000000000000000:ℚ)) Units.WEI).value =
      num ((1500000000000000000 : ℤ):ℚ) := by
    simp only [mkWei_atomic, bnRoundInt]
    rw [show (1500000000000000000:ℚ) = ((1500000000000000000:ℤ):ℚ) by norm_num, roundQ_intCast]
  have hw : mkWei (num (1500000000000000000:ℚ)) Units.WEI =
      ⟨num ((1500000000000000000 : ℤ):ℚ)⟩ := wei_eq_of_value hv
  have htu : Wei.toUnit ⟨num ((1500000000000000000 : ℤ):ℚ)⟩ Units.ETHER = num ((3:ℚ)/2) := by
    rw [toUnit_named _ Units.ETHER (by simp [ALL_UNITS])]
    congr 1
    rw [show Units.ETHER.weis = ((10:ℚ) ^ 18) from rfl]
    norm_num
  simp only [Wei.toString, Wei.toStringChars, hw, htu, bnToFixedChars,
    toFixedChars_eval ((3:ℚ)/2) 5 150000 (by norm_num)]
  decide

/-- Evaluation of the same value displayed non-fixed with one decimal: the
point survives trimming. -/
theorem toString_three_halves_trim_eval :
    Wei.toString ⟨num ((1500000000000000000 : ℤ):ℚ)⟩ Units.ETHER 1 false false = "1.5" := by
  have htu : Wei.toUnit ⟨num ((1500000000000000000 : ℤ):ℚ)⟩ Units.ETHER = num ((3:ℚ)/2) := by
    rw [toUnit_named _ Units.ETHER (by simp [ALL_UNITS])]
    congr 1
    rw [show Units.ETHER.weis = ((10:ℚ) ^ 18) from rfl]
    norm_num
  simp only [Wei.toString, Wei.toStringChars, htu, bnToFixedChars,
    toFixedChars_eval ((3:ℚ)/2) 1 15 (by norm_num)]
  decide

/-- C5: toString converts to the requested unit and renders with
toFixed(decimals, ROUND_HALF_UP); fixed mode keeps the point and exactly the
requested count of fractional digits, while the default mode strips trailing
zeros after the point (and a dangling point), so a surviving point is never
followed by a trailing zero; the spec's two concrete examples hold. -/
theorem wei_toString_spec :
    Wei.toString (mkWei (num 1) Units.ETHER) Units.ETHER 3 false false = "1" ∧
    Wei.toString (mkWei (num 1500000000000000000) Units.WEI) Units.ETHER 5 false true =
      "1.50000" ∧
    (∀ (z : ℤ) (u : Unit), u ∈ ALL_UNITS → ∀ e : ℕ,
      '.' ∈ (Wei.toString ⟨num (z:ℚ)⟩ u (e + 1) false true).toList ∧
      fractionalDigitCount (Wei.toString ⟨num (z:ℚ)⟩ u (e + 1) false true) = e + 1) ∧
    (∀ (z : ℤ) (u : Unit), u ∈ ALL_UNITS → ∀ d : ℕ,
      '.' ∈ (Wei.toString ⟨num (z:ℚ)⟩ u d false false).toList →
      (Wei.toString ⟨num (z:ℚ)⟩ u d false false).toList.getLast? ≠ some '0' ∧
      (Wei.toString ⟨num (z:ℚ)⟩ u d false false).toList.getLast? ≠ some '.') := by
  refine ⟨toString_one_ether_eval, toString_three_halves_fixed_eval, ?_, ?_⟩
  · intro z u hu e
    exact toStringChars_fixed z u hu e
  · intro z u hu d hdot
    exact toStringChars_trimmed z u hu d hdot

/-- Witness for C5's quantified parts: two fixed fractional digits survive
for a zero value, and the trimmed non-fixed rendering of 1.5 Ether ends in a
nonzero digit. -/
theorem wei_toString_spec_witness :
    Units.ETHER ∈ ALL_UNITS ∧
    fractionalDigitCount (Wei.toString ⟨num ((0:ℤ):ℚ)⟩ Units.ETHER (1 + 1) false true) = 1 + 1 ∧
    ('.' ∈ (Wei.toString ⟨num ((1500000000000000000:ℤ):ℚ)⟩ Units.ETHER 1 false false).toList ∧
      (Wei.toString ⟨num ((1500000000000000000:ℤ):ℚ)⟩
        Units.ETHER 1 false false).toList.getLast? ≠ some '0') := by
  have hmem : Units.ETHER ∈ ALL_UNITS := by simp [ALL_UNITS]
  have hdot : '.' ∈
      (Wei.toString ⟨num ((1500000000000000000:ℤ):ℚ)⟩ Units.ETHER 1 false false).toList := by
    rw [toString_three_halves_trim_eval]
    decide
  exact ⟨hmem, (wei_toString_spec.2.2.1 0 Units.ETHER hmem 1).2,
    hdot, (wei_toString_spec.2.2.2 1500000000000000000 Units.ETHER hmem 1 hdot).1⟩

end EmeraldJS
